import Mathlib

/-!
Shallow embedding of the discord bot's two automation subsystems
(`src/services/scheduledMessageService.ts` and `src/bot/client.ts`):
the interval parser, the due-check predicate, the config loader, the
per-tick sweep, and the batch mention enrollment flow.

Timestamps are modelled as `Int` milliseconds (the value of
`Date.getTime()`).  JavaScript's `%` is the truncated remainder
(`Int.tmod`), and `x % 0` is `NaN`, which compares false; both are made
explicit below.
-/

/-- `CHECK_INTERVAL_MS = 60 * 1000` from `scheduledMessageService.ts`. -/
def CHECK_INTERVAL_MS : Int := 60 * 1000

/-- The single error the interval parser can raise
(`Invalid interval format` / `Invalid interval unit`, both surfaced as an
invalid-format exception). -/
inductive IntervalError where
  | invalidFormat : IntervalError
deriving DecidableEq, Repr

/-- The `[mhd]` unit character class of the regex `^(\d+)([mhd])$` together
with the `switch` on the unit: `m → 60_000`, `h → 3_600_000`,
`d → 86_400_000`; any other character does not match the regex. -/
def unitFactor : Char → Option Nat
  | 'm' => some (60 * 1000)
  | 'h' => some (60 * 60 * 1000)
  | 'd' => some (24 * 60 * 60 * 1000)
  | _ => none

/-- `parseInt(digits, 10)` on a string of decimal digits. -/
def digitsToNat (ds : List Char) : Nat :=
  ds.foldl (fun n c => 10 * n + (c.toNat - 48)) 0

/-- `parseInterval` from `scheduledMessageService.ts`: the anchored regex
`^(\d+)([mhd])$` demands one or more digits followed by exactly one unit
letter and nothing else; on a match the digit group is parsed in base 10
and multiplied by the unit factor, otherwise an invalid-format error is
thrown.  Decomposing the string as "last character = unit, remaining
prefix = digit group" is equivalent to the anchored regex. -/
def parseInterval (str : String) : Except IntervalError Nat :=
  match str.data.getLast? with
  | none => Except.error IntervalError.invalidFormat
  | some u =>
    let ds := str.data.dropLast
    if ds ≠ [] ∧ ds.all Char.isDigit then
      match unitFactor u with
      | some f => Except.ok (digitsToNat ds * f)
      | none => Except.error IntervalError.invalidFormat
    else Except.error IntervalError.invalidFormat

/-- `shouldSendNow` from `scheduledMessageService.ts`.  Arguments are the
`getTime()` values of the `Date` parameters.  In JavaScript
`elapsed % intervalMs` is `NaN` when `intervalMs = 0` and `NaN < x` is
false, so the zero case is an explicit `false` branch; otherwise `%` is
the truncated remainder `Int.tmod`.  The comparison
`timeSinceLastSent < intervalMs / 2` is exact float division; over the
integers it is equivalent to `2 * timeSinceLastSent < intervalMs`. -/
def shouldSendNow (startMs intervalMs nowMs : Int) (lastSent : Option Int) : Bool :=
  if nowMs < startMs then
    false
  else
    let elapsed := nowMs - startMs
    if intervalMs = 0 then
      false
    else if ¬ (Int.tmod elapsed intervalMs < CHECK_INTERVAL_MS) then
      false
    else
      match lastSent with
      | some lastSentMs =>
        if 2 * (nowMs - lastSentMs) < intervalMs then false else true
      | none => true

/-! ### Schedule registry loading (`loadScheduleConfig`, `initialize`) -/

/-- `ScheduleEntry` from `scheduledMessageService.ts`.  The `start` field
is kept as the millisecond timestamp produced by `new Date(entry.start)`
(the ISO-8601 parse performed by the tick loop). -/
structure ScheduleEntry where
  channel_id : String
  start : Int
  interval : String
  message : String
deriving DecidableEq, Repr

/-- `ScheduleConfig` from `scheduledMessageService.ts`. -/
structure ScheduleConfig where
  schedules : List ScheduleEntry
deriving DecidableEq, Repr

/-- Outcome of `yaml.load(fileContent)` on the file's text, as the source
consumes it: the external parser either raises a parse exception
(syntactically invalid YAML such as `"{"`), returns a null/undefined
value, returns a value whose `schedules` field is absent or falsy, or
returns an object carrying a schedules list. -/
inductive YamlDoc where
  | malformed
  | loadedNull
  | loadedNoList
  | loadedSchedules (schedules : List ScheduleEntry)
deriving DecidableEq, Repr

/-- The state of the configuration file on disk as `fs.existsSync` /
`fs.readFileSync` observe it. -/
inductive FileState where
  | missing
  | present (doc : YamlDoc)
deriving DecidableEq, Repr

/-- The exception a config load can propagate: the YAML parse exception
raised by `yaml.load`, which `loadScheduleConfig` does not catch. -/
inductive LoadError where
  | yamlException
deriving DecidableEq, Repr

/-- `loadScheduleConfig` from `scheduledMessageService.ts`: a missing file
returns `{ schedules: [] }`; otherwise the file is parsed by `yaml.load`
(whose exception on invalid YAML propagates — there is no try/catch in
the source); a null result or one without a truthy `schedules` field
yields `{ schedules: [] }`; otherwise the parsed config is returned. -/
def loadScheduleConfig : FileState → Except LoadError ScheduleConfig
  | FileState.missing => Except.ok ⟨[]⟩
  | FileState.present YamlDoc.malformed => Except.error LoadError.yamlException
  | FileState.present YamlDoc.loadedNull => Except.ok ⟨[]⟩
  | FileState.present YamlDoc.loadedNoList => Except.ok ⟨[]⟩
  | FileState.present (YamlDoc.loadedSchedules l) => Except.ok ⟨l⟩

/-- The fields of `ScheduledMessageService` that carry schedule state:
the loaded config, the per-index last-sent map (`Map<number, Date>`,
modelled as `Nat → Option Int`) and whether the repeating timer was
armed. -/
structure ServiceState where
  scheduleConfig : ScheduleConfig
  lastSentMap : Nat → Option Int
  timerArmed : Bool

/-- `ScheduledMessageService.initialize` up to its first tick: stop any
timer, clear the last-sent map, load the registry (a YAML parse exception
propagates), and arm the timer only when the schedule list is non-empty.
The immediate `checkAndSend()` it then fires is an ordinary tick on this
cleared state (`checkAndSend` below). -/
def initializeService (fs : FileState) : Except LoadError ServiceState :=
  match loadScheduleConfig fs with
  | Except.error e => Except.error e
  | Except.ok cfg =>
      Except.ok
        { scheduleConfig := cfg
          lastSentMap := fun _ => none
          timerArmed := !cfg.schedules.isEmpty }

/-! ### The per-tick sweep (`checkAndSend`) -/

/-- The slice of a fetched channel the sweep consumes:
`channel.isTextBased()`. -/
structure SinkChannel where
  isTextBased : Bool
deriving DecidableEq, Repr

/-- The message-sink collaborator: `client.channels.fetch` resolving to a
channel or null, and whether `channel.send(message)` succeeds or throws
for a given channel id and message. -/
structure World where
  fetchChannel : String → Option SinkChannel
  sendOk : String → String → Bool

/-- What happened to one schedule entry during one tick.  The source's
per-entry try/catch turns the throwing cases (`parseInterval`, a failed
`send`) into logged outcomes, so no exception escapes the loop body. -/
inductive TickOutcome where
  | notDue
  | parseFailed
  | channelUnavailable
  | sendFailed
  | sent
deriving DecidableEq, Repr

/-- The body of the `for` loop of `checkAndSend` for one entry, given the
entry's current last-sent value: parse the interval (failure is caught
and logged), evaluate `shouldSendNow`, resolve the channel (null or a
non-text channel is logged and skipped with `continue`), send (a throw is
caught and logged).  Only the `sent` outcome updates the map. -/
def processEntry (w : World) (now : Int) (e : ScheduleEntry)
    (last : Option Int) : TickOutcome :=
  match parseInterval e.interval with
  | Except.error _ => TickOutcome.parseFailed
  | Except.ok intervalMs =>
    if shouldSendNow e.start (intervalMs : Int) now last then
      match w.fetchChannel e.channel_id with
      | none => TickOutcome.channelUnavailable
      | some ch =>
        if ch.isTextBased = false then TickOutcome.channelUnavailable
        else if w.sendOk e.channel_id e.message then TickOutcome.sent
        else TickOutcome.sendFailed
    else TickOutcome.notDue

/-- Whether an outcome means `channel.send` was actually invoked (it is
both for a successful send and for a send that threw). -/
def sendInvoked : TickOutcome → Bool
  | TickOutcome.sent => true
  | TickOutcome.sendFailed => true
  | _ => false

/-- `this.lastSentMap.set(i, now)`. -/
def updateMap (m : Nat → Option Int) (i : Nat) (t : Int) : Nat → Option Int :=
  fun j => if j = i then some t else m j

/-- The sweep of `checkAndSend` from entry index `i` on: each entry is
processed in order, a `sent` outcome records `now` for that index, and
the loop continues regardless of the outcome.  Returns the final map and
the indexed outcome of every entry. -/
def checkAndSendGo (w : World) (now : Int) :
    List ScheduleEntry → Nat → (Nat → Option Int) →
      ((Nat → Option Int) × List (Nat × TickOutcome))
  | [], _, m => (m, [])
  | e :: rest, i, m =>
    let out := processEntry w now e (m i)
    let m' := if out = TickOutcome.sent then updateMap m i now else m
    let r := checkAndSendGo w now rest (i + 1) m'
    (r.1, (i, out) :: r.2)

/-- `checkAndSend` from `scheduledMessageService.ts`: one tick over the
whole schedule list starting from index 0. -/
def checkAndSend (w : World) (now : Int) (schedules : List ScheduleEntry)
    (m : Nat → Option Int) : (Nat → Option Int) × List (Nat × TickOutcome) :=
  checkAndSendGo w now schedules 0 m

/-! ### Batch mention enrollment (`client.ts`) -/

/-- `BATCH_SIZE = 10` from `client.ts`. -/
def BATCH_SIZE : Nat := 10

/-- The inert placeholder content `"\u200B"` (zero-width space). -/
def zeroWidthSpace : String := "\u200B"

/-- `userIds.map((id) => `<@${id}>`).join(" ")`. -/
def mentionString (userIds : List String) : String :=
  String.intercalate " " (userIds.map (fun id => "<@" ++ id ++ ">"))

/-- A message operation issued against the thread: `thread.send` creating
a post, `message.edit`, or `message.delete` (which the enrollment code
never issues).  Posts are identified by the order of creation. -/
inductive ThreadOp where
  | create (msgId : Nat) (content : String)
  | edit (msgId : Nat) (content : String)
  | delete (msgId : Nat)
deriving DecidableEq, Repr

/-- Whether an operation is a `thread.send` post creation. -/
def ThreadOp.isCreate : ThreadOp → Bool
  | ThreadOp.create _ _ => true
  | _ => false

/-- Whether an operation is a `message.edit`. -/
def ThreadOp.isEdit : ThreadOp → Bool
  | ThreadOp.edit _ _ => true
  | _ => false

/-- Whether an operation is a `message.delete`. -/
def ThreadOp.isDelete : ThreadOp → Bool
  | ThreadOp.delete _ => true
  | _ => false

/-- The post an operation touches. -/
def ThreadOp.targetId : ThreadOp → Nat
  | ThreadOp.create i _ => i
  | ThreadOp.edit i _ => i
  | ThreadOp.delete i => i

/-- `addUsersToThreadQuietly` from `client.ts`: build the mention string;
with an existing message, edit it to the mentions and return it; with
none, create a post with the zero-width-space placeholder, then edit it
to the mentions.  `nextId` supplies the id a newly created post gets;
the result is (returned message id, next fresh id, operations issued). -/
def addUsersToThreadQuietly (nextId : Nat) (userIds : List String)
    (existingMessage : Option Nat) : Nat × Nat × List ThreadOp :=
  let mentions := mentionString userIds
  match existingMessage with
  | some msgId => (msgId, nextId, [ThreadOp.edit msgId mentions])
  | none =>
      (nextId, nextId + 1,
        [ThreadOp.create nextId zeroWidthSpace, ThreadOp.edit nextId mentions])

/-- Fuel-indexed chunking helper; the fuel only bounds the recursion
depth (each step consumes at least one element, so `l.length` fuel always
suffices) and keeps the definition structurally recursive. -/
def batchesOfAux : Nat → List α → List (List α)
  | 0, _ => []
  | _, [] => []
  | fuel + 1, x :: xs =>
    ((x :: xs).take BATCH_SIZE) :: batchesOfAux fuel ((x :: xs).drop BATCH_SIZE)

/-- `memberIds.slice(i, i + BATCH_SIZE)` for `i = 0, 10, 20, …`: the
partition of the id list into chunks of `BATCH_SIZE`. -/
def batchesOf (l : List α) : List (List α) :=
  batchesOfAux l.length l

/-- One iteration of the batching loop in the `ThreadCreate` handler:
the accumulator carries (current bot message id, next fresh post id,
operations so far). -/
def enrollStep (acc : Nat × Nat × List ThreadOp) (batch : List String) :
    Nat × Nat × List ThreadOp :=
  let r := addUsersToThreadQuietly acc.2.1 batch (some acc.1)
  (r.1, r.2.1, acc.2.2 ++ r.2.2)

/-- The `ThreadCreate` handler of `client.ts` after the member fetch: one
empty placeholder post is created (post id 0), then every `BATCH_SIZE`
chunk of the member ids is pushed through `addUsersToThreadQuietly`
against that post.  Returns the operations issued. -/
def threadCreateEnroll (memberIds : List String) : List ThreadOp :=
  ((batchesOf memberIds).foldl enrollStep
    (0, 1, [ThreadOp.create 0 zeroWidthSpace])).2.2

/-- The content a post holds after a list of operations has been applied
(`none` when the post does not exist). -/
def contentAfter (ops : List ThreadOp) (msgId : Nat) : Option String :=
  ops.foldl
    (fun c op =>
      match op with
      | ThreadOp.create i s => if i = msgId then some s else c
      | ThreadOp.edit i s => if i = msgId then some s else c
      | ThreadOp.delete i => if i = msgId then none else c)
    none

/-- A message in a thread's history: its id and its author's user id. -/
structure ThreadMsg where
  id : Nat
  author : String
deriving DecidableEq, Repr

/-- `findBotMessageInThread` from `client.ts`: fetch the oldest 50
messages of the thread (`{ limit: 50, after: 0 }` pages from the oldest
end) and return the first one authored by the bot account, or none.
`history` is the thread's messages from oldest to newest. -/
def findBotMessageInThread (botId : String) (history : List ThreadMsg) :
    Option ThreadMsg :=
  (history.take 50).find? (fun m => m.author == botId)

/-- The per-thread body of the `GuildMemberAdd` handler: locate the
existing bot message and hand the single-member batch to
`addUsersToThreadQuietly` (creating a fresh post with id `freshId` only
when no marker was found).  Returns the operations issued. -/
def guildMemberAddEnrollThread (botId : String) (history : List ThreadMsg)
    (memberId : String) (freshId : Nat) : List ThreadOp :=
  let existing := (findBotMessageInThread botId history).map ThreadMsg.id
  (addUsersToThreadQuietly freshId [memberId] existing).2.2

/-- Characterization of `shouldSendNow` for a positive interval: true
exactly when the schedule has started, `now` lies inside the 60 000 ms
tolerance window of an occurrence, and no dispatch happened within the
last half interval. -/
theorem shouldSendNow_eq_true_iff (s iv n : Int) (ls : Option Int) (hiv : 0 < iv) :
    shouldSendNow s iv n ls = true ↔
      (s ≤ n ∧ (n - s) % iv < 60000 ∧
        (ls = none ∨ ∃ l, ls = some l ∧ iv ≤ 2 * (n - l))) := by
  have hC : CHECK_INTERVAL_MS = 60000 := by norm_num [CHECK_INTERVAL_MS]
  have hiv' : ¬ (iv = 0) := by omega
  by_cases h1 : n < s
  · constructor
    · intro h
      exfalso
      simp only [shouldSendNow, if_pos h1, Bool.false_eq_true] at h
    · intro h
      exact absurd h.1 (by omega)
  push_neg at h1
  have hns : 0 ≤ n - s := by omega
  have htm : Int.tmod (n - s) iv = (n - s) % iv := Int.tmod_eq_emod hns (by omega)
  by_cases h2 : (n - s) % iv < 60000
  · cases ls with
    | none =>
      have hred : shouldSendNow s iv n none = true := by
        simp only [shouldSendNow, if_neg (not_lt.mpr h1), if_neg hiv', htm, hC]
        rw [if_neg (by omega : ¬ ¬ ((n - s) % iv < 60000))]
      rw [hred]
      constructor
      · intro
        exact ⟨h1, h2, Or.inl rfl⟩
      · intro
        rfl
    | some l =>
      have hred : shouldSendNow s iv n (some l) =
          if 2 * (n - l) < iv then false else true := by
        simp only [shouldSendNow, if_neg (not_lt.mpr h1), if_neg hiv', htm, hC]
        rw [if_neg (by omega : ¬ ¬ ((n - s) % iv < 60000))]
      rw [hred]
      by_cases h3 : 2 * (n - l) < iv
      · rw [if_pos h3]
        constructor
        · intro h
          exact absurd h (by simp)
        · rintro ⟨-, -, h | ⟨l', hl', hle⟩⟩
          · exact Option.noConfusion h
          · cases hl'
            omega
      · rw [if_neg h3]
        constructor
        · intro
          exact ⟨h1, h2, Or.inr ⟨l, rfl, by omega⟩⟩
        · intro
          rfl
  · constructor
    · intro h
      exfalso
      simp only [shouldSendNow, if_neg (not_lt.mpr h1), if_neg hiv', htm, hC] at h
      rw [if_pos (by omega : ¬ ((n - s) % iv < 60000))] at h
      exact absurd h (by simp)
    · intro h
      exact absurd h.2.1 h2

/-- The duplicate-dispatch guard: a `lastSent` strictly within half an
interval of `now` forces a false result on every path. -/
theorem shouldSendNow_recent_lastSent (s iv n l : Int) (h : 2 * (n - l) < iv) :
    shouldSendNow s iv n (some l) = false := by
  unfold shouldSendNow
  split_ifs with h1 h2
  · rfl
  · rfl
  · show (if ¬ (Int.tmod (n - s) iv < CHECK_INTERVAL_MS) then false
        else if 2 * (n - l) < iv then false else true) = false
    by_cases h3 : ¬ (Int.tmod (n - s) iv < CHECK_INTERVAL_MS)
    · rw [if_pos h3]
    · rw [if_neg h3, if_pos h]

/-- C1: `shouldSendNow (start, intervalMs, now, lastSent)` returns false
whenever `now < start` (regardless of the other inputs) and false whenever
`lastSent` is within `intervalMs / 2` of `now`; and for a positive
interval (where `mod intervalMs` is defined) it returns true if and only
if `now ≥ start`, `(now - start) mod intervalMs < 60000`, and `lastSent`
is absent or at least `intervalMs / 2` before `now`
(`now - lastSent ≥ intervalMs / 2`, i.e. `2 * (now - lastSent) ≥ intervalMs`). -/
theorem shouldSendNow_spec (s iv n : Int) (ls : Option Int) :
    (n < s → shouldSendNow s iv n ls = false) ∧
    (∀ l, ls = some l → 2 * (n - l) < iv → shouldSendNow s iv n ls = false) ∧
    (0 < iv →
      (shouldSendNow s iv n ls = true ↔
        (s ≤ n ∧ (n - s) % iv < 60000 ∧
          (ls = none ∨ ∃ l, ls = some l ∧ iv ≤ 2 * (n - l))))) := by
  refine ⟨fun h1 => ?_, fun l hl h => ?_, fun hiv => shouldSendNow_eq_true_iff s iv n ls hiv⟩
  · unfold shouldSendNow
    rw [if_pos h1]
  · subst hl
    exact shouldSendNow_recent_lastSent s iv n l h

/-- C1 witness: start in the future, a recent last dispatch, and the
characterization instantiated at start 0, a 2-minute interval, now 0 and
no previous dispatch. -/
theorem shouldSendNow_spec_witness :
    shouldSendNow 5 60000 3 none = false ∧
    shouldSendNow 0 100 50 (some 10) = false ∧
    ((0 : Int) < 120000 ∧
      (shouldSendNow 0 120000 0 none = true ↔
        ((0 : Int) ≤ 0 ∧ ((0 : Int) - 0) % 120000 < 60000 ∧
          ((none : Option Int) = none ∨
            ∃ l, (none : Option Int) = some l ∧ (120000 : Int) ≤ 2 * (0 - l))))) :=
  ⟨(shouldSendNow_spec 5 60000 3 none).1 (by norm_num),
   (shouldSendNow_spec 0 100 50 (some 10)).2.1 10 rfl (by norm_num),
   by norm_num, (shouldSendNow_spec 0 120000 0 none).2.2 (by norm_num)⟩

/-- C3 counterexample: with start 0, a 7 200 000 ms interval and
now 3 600 000 ms, `lastSent = now - intervalMs` holds and yet
`shouldSendNow` returns false, because now is 3 600 000 ms past the last
occurrence boundary and hence outside the 60 000 ms window — the claim's
unrestricted "for every start, intervalMs, and now" fails. -/
theorem shouldSendNow_full_interval_refuted :
    (3600000 : Int) - (-3600000) = 7200000 ∧
    shouldSendNow 0 7200000 3600000 (some (-3600000)) = false := by
  constructor
  · norm_num
  · decide

/-- C3 amended: if in addition the interval is positive, the schedule has
started and `now` lies within the 60 000 ms tolerance window of an
occurrence, then a `lastSent` exactly one full `intervalMs` before `now`
never blocks: `shouldSendNow` returns true. -/
theorem shouldSendNow_full_interval_fires (s iv n l : Int) (hiv : 0 < iv)
    (hsn : s ≤ n) (hw : (n - s) % iv < 60000) (hl : n - l = iv) :
    shouldSendNow s iv n (some l) = true := by
  rw [shouldSendNow_eq_true_iff s iv n (some l) hiv]
  exact ⟨hsn, hw, Or.inr ⟨l, rfl, by omega⟩⟩

/-- C3 witness: start 0, 1-hour interval, now at the second occurrence,
lastSent at the first. -/
theorem shouldSendNow_full_interval_fires_witness :
    shouldSendNow 0 3600000 3600000 (some 0) = true :=
  shouldSendNow_full_interval_fires 0 3600000 3600000 0 (by norm_num)
    (by norm_num) (by decide) (by norm_num)

/-- A matching interval string parses to value × unit factor.  The
`digitsToNat ds < 2 ^ 53` bound marks the range in which JavaScript's
`parseInt` is exact, so that the integer model coincides with the code. -/
theorem parseInterval_ok (ds : List Char) (u : Char) (f : Nat)
    (hne : ds ≠ []) (hdig : ds.all Char.isDigit = true)
    (hu : unitFactor u = some f) (hrange : digitsToNat ds < 2 ^ 53) :
    parseInterval (String.mk (ds ++ [u])) = Except.ok (digitsToNat ds * f) := by
  unfold parseInterval
  simp only [String.mk, List.getLast?_concat, List.dropLast_concat]
  rw [if_pos ⟨hne, hdig⟩, hu]

theorem parseInterval_bad (s : String)
    (h : ¬ ∃ ds u, s.data = ds ++ [u] ∧ ds ≠ [] ∧ ds.all Char.isDigit = true ∧
      (unitFactor u).isSome) :
    parseInterval s = Except.error IntervalError.invalidFormat := by
  unfold parseInterval
  rcases hd : s.data.getLast? with _ | u
  · rfl
  · have hne : s.data ≠ [] := by
      intro he
      rw [he] at hd
      exact Option.noConfusion hd
    have hlast : s.data.getLast hne = u := by
      have h2 := List.getLast?_eq_getLast s.data hne
      rw [hd] at h2
      exact (Option.some.injEq _ _).mp h2.symm
    have hsplit : s.data = s.data.dropLast ++ [u] := by
      conv_lhs => rw [← List.dropLast_concat_getLast hne]
      rw [hlast]
    show (if s.data.dropLast ≠ [] ∧ s.data.dropLast.all Char.isDigit then
        (match unitFactor u with
         | some f => Except.ok (digitsToNat s.data.dropLast * f)
         | none => Except.error IntervalError.invalidFormat)
      else Except.error IntervalError.invalidFormat) = Except.error IntervalError.invalidFormat
    by_cases hcond : (s.data.dropLast ≠ [] ∧ s.data.dropLast.all Char.isDigit)
    · rcases hu : unitFactor u with _ | f
      · rw [if_pos hcond]
      · exfalso
        exact h ⟨s.data.dropLast, u, hsplit, hcond.1, hcond.2, by rw [hu]; rfl⟩
    · rw [if_neg hcond]

/-- C2: on any string of the form digits-then-unit (unit ∈ {m, h, d},
value in the float-exact range `< 2^53`) `parseInterval` returns the
value times 60 000 / 3 600 000 / 86 400 000 ms; the four documented
examples hold; and every string not of that form — empty, non-numeric,
unknown unit, trailing characters — fails with the invalid-format
error. -/
theorem parseInterval_spec :
    (∀ ds u f, ds ≠ [] → ds.all Char.isDigit = true → unitFactor u = some f →
      digitsToNat ds < 2 ^ 53 →
      parseInterval (String.mk (ds ++ [u])) = Except.ok (digitsToNat ds * f)) ∧
    parseInterval "30m" = Except.ok 1800000 ∧
    parseInterval "2h" = Except.ok 7200000 ∧
    parseInterval "1d" = Except.ok 86400000 ∧
    parseInterval "7d" = Except.ok 604800000 ∧
    (∀ s : String,
      (¬ ∃ ds u, s.data = ds ++ [u] ∧ ds ≠ [] ∧ ds.all Char.isDigit = true ∧
        (unitFactor u).isSome) →
      parseInterval s = Except.error IntervalError.invalidFormat) ∧
    parseInterval "" = Except.error IntervalError.invalidFormat ∧
    parseInterval "abc" = Except.error IntervalError.invalidFormat ∧
    parseInterval "10x" = Except.error IntervalError.invalidFormat :=
  ⟨parseInterval_ok, rfl, rfl, rfl, rfl, parseInterval_bad, rfl, rfl, rfl⟩

/-- C2 witness: the success case at "42m" and the failure case at "9z". -/
theorem parseInterval_spec_witness :
    parseInterval (String.mk (['4', '2'] ++ ['m'])) =
      Except.ok (digitsToNat ['4', '2'] * (60 * 1000)) ∧
    parseInterval "9z" = Except.error IntervalError.invalidFormat := by
  constructor
  · exact parseInterval_spec.1 ['4', '2'] 'm' (60 * 1000) (by decide) (by decide)
      rfl (by decide)
  · refine parseInterval_spec.2.2.2.2.2.1 "9z" ?_
    rintro ⟨ds, u, hsp, hne, hdig, hus⟩
    have hdata : ("9z").data = ['9', 'z'] := rfl
    rw [hdata] at hsp
    have hu : u = 'z' := by
      have h2 := congrArg List.getLast? hsp
      rw [List.getLast?_concat] at h2
      simpa using h2.symm
    subst hu
    exact absurd hus (by decide)

/-- C10: `parseInterval` does not demand a positive value: `"0m"`,
`"0h"`, `"0d"` all succeed with 0 ms and the leading-zero string
`"007m"` parses by numeric value to 420 000 ms; and a registry entry
carrying interval `"0m"` passes parsing inside the tick loop and reaches
`shouldSendNow` (the tick's outcome is `notDue` as decided by the
predicate, not `parseFailed`). -/
theorem parseInterval_zero_accepted :
    parseInterval "0m" = Except.ok 0 ∧
    parseInterval "0h" = Except.ok 0 ∧
    parseInterval "0d" = Except.ok 0 ∧
    parseInterval "007m" = Except.ok 420000 ∧
    (∀ last : Option Int,
      processEntry ⟨fun _ => some ⟨true⟩, fun _ _ => true⟩ 5
        ⟨"c", 0, "0m", "x"⟩ last = TickOutcome.notDue) := by
  refine ⟨rfl, rfl, rfl, rfl, fun last => ?_⟩
  have hz : shouldSendNow 0 ((0 : Nat) : Int) 5 last = false := by
    unfold shouldSendNow
    rw [if_neg (by norm_num), if_pos (by norm_num)]
  simp only [processEntry]
  rw [show parseInterval "0m" = Except.ok 0 from rfl]
  simp only [hz, Bool.false_eq_true, if_false]

/-- C5 counterexample: a present file whose content is syntactically
invalid YAML (e.g. the text `{`) makes `yaml.load` raise, and
`loadScheduleConfig` — which has no try/catch — propagates the exception
instead of returning an empty schedule list. -/
theorem loadScheduleConfig_malformed_raises :
    loadScheduleConfig (FileState.present YamlDoc.malformed) =
      Except.error LoadError.yamlException ∧
    loadScheduleConfig (FileState.present YamlDoc.malformed) ≠
      Except.ok ⟨[]⟩ := by
  constructor
  · rfl
  · intro h
    exact Except.noConfusion h

/-- C5 amended: `loadScheduleConfig` returns an empty schedule list, not
an error, when the file is missing, when the parsed content is null, and
when the top-level structure has no list under the `schedules` key; but a
file whose content fails YAML parsing altogether propagates the parse
exception rather than degrading. -/
theorem loadScheduleConfig_degrades :
    loadScheduleConfig FileState.missing = Except.ok ⟨[]⟩ ∧
    loadScheduleConfig (FileState.present YamlDoc.loadedNull) = Except.ok ⟨[]⟩ ∧
    loadScheduleConfig (FileState.present YamlDoc.loadedNoList) = Except.ok ⟨[]⟩ ∧
    loadScheduleConfig (FileState.present YamlDoc.malformed) =
      Except.error LoadError.yamlException :=
  ⟨rfl, rfl, rfl, rfl⟩

/-- Entries before the current sweep index are never touched. -/
theorem checkAndSendGo_map_lt (w : World) (now : Int) :
    ∀ (l : List ScheduleEntry) (i : Nat) (m : Nat → Option Int) (j : Nat),
      j < i → (checkAndSendGo w now l i m).1 j = m j := by
  intro l
  induction l with
  | nil =>
    intro i m j h
    rfl
  | cons e rest ih =>
    intro i m j h
    show (checkAndSendGo w now rest (i + 1)
      (if processEntry w now e (m i) = TickOutcome.sent
        then updateMap m i now else m)).1 j = m j
    rw [ih (i + 1) _ j (by omega)]
    by_cases hs : processEntry w now e (m i) = TickOutcome.sent
    · rw [if_pos hs]
      unfold updateMap
      rw [if_neg (by omega)]
    · rw [if_neg hs]

/-- The sweep records one outcome per entry, in order, and the outcome of
the entry at index `j` is computed from the map value the sweep started
with at `j` — updates at other indices do not influence it. -/
theorem checkAndSendGo_outs (w : World) (now : Int) :
    ∀ (l : List ScheduleEntry) (i : Nat) (m : Nat → Option Int),
      (checkAndSendGo w now l i m).2 =
        ((List.range' i l.length).zip l).map
          (fun p => (p.1, processEntry w now p.2 (m p.1))) := by
  intro l
  induction l with
  | nil =>
    intro i m
    rfl
  | cons e rest ih =>
    intro i m
    show (i, processEntry w now e (m i)) ::
        (checkAndSendGo w now rest (i + 1)
          (if processEntry w now e (m i) = TickOutcome.sent
            then updateMap m i now else m)).2 =
      ((List.range' i (rest.length + 1)).zip (e :: rest)).map
        (fun p => (p.1, processEntry w now p.2 (m p.1)))
    rw [List.range'_succ]
    show _ = (i, processEntry w now e (m i)) ::
      ((List.range' (i + 1) rest.length).zip rest).map
        (fun p => (p.1, processEntry w now p.2 (m p.1)))
    rw [ih (i + 1) _]
    congr 1
    apply List.map_congr_left
    intro p hp
    have hp1 := (List.of_mem_zip hp).1
    rw [List.mem_range'] at hp1
    obtain ⟨k, hk, hpk⟩ := hp1
    have hge : i + 1 ≤ p.1 := by omega
    by_cases hs : processEntry w now e (m i) = TickOutcome.sent
    · rw [if_pos hs]
      unfold updateMap
      rw [if_neg (by omega)]
    · rw [if_neg hs]

/-- Every outcome the sweep records sits at an index of the swept range. -/
theorem checkAndSendGo_outs_indices (w : World) (now : Int)
    (l : List ScheduleEntry) (i : Nat) (m : Nat → Option Int) :
    ∀ j o, (j, o) ∈ (checkAndSendGo w now l i m).2 →
      i ≤ j ∧ j < i + l.length := by
  intro j o hmem
  rw [checkAndSendGo_outs w now l i m] at hmem
  obtain ⟨p, hp, hpe⟩ := List.mem_map.mp hmem
  have hp1 := (List.of_mem_zip hp).1
  rw [List.mem_range'] at hp1
  obtain ⟨k, hk, hpk⟩ := hp1
  have : p.1 = j := congrArg Prod.fst hpe
  omega

/-- The sweep records at most one outcome per index. -/
theorem checkAndSendGo_outs_functional (w : World) (now : Int) :
    ∀ (l : List ScheduleEntry) (i : Nat) (m : Nat → Option Int) (j : Nat)
      (o o' : TickOutcome), (j, o) ∈ (checkAndSendGo w now l i m).2 →
      (j, o') ∈ (checkAndSendGo w now l i m).2 → o = o' := by
  intro l
  induction l with
  | nil =>
    intro i m j o o' h
    exact absurd h (by simp [checkAndSendGo])
  | cons e rest ih =>
    intro i m j o o' h h'
    have hcons : (checkAndSendGo w now (e :: rest) i m).2 =
        (i, processEntry w now e (m i)) ::
          (checkAndSendGo w now rest (i + 1)
            (if processEntry w now e (m i) = TickOutcome.sent
              then updateMap m i now else m)).2 := rfl
    rw [hcons] at h h'
    rcases List.mem_cons.mp h with hh | ht
    · rcases List.mem_cons.mp h' with hh' | ht'
      · have h1 := congrArg Prod.snd hh
        have h2 := congrArg Prod.snd hh'
        simp only at h1 h2
        rw [h1, h2]
      · exfalso
        have hj : j = i := congrArg Prod.fst hh
        have := (checkAndSendGo_outs_indices w now rest (i + 1) _ j o' ht').1
        omega
    · rcases List.mem_cons.mp h' with hh' | ht'
      · exfalso
        have hj : j = i := congrArg Prod.fst hh'
        have := (checkAndSendGo_outs_indices w now rest (i + 1) _ j o ht).1
        omega
      · exact ih (i + 1) _ j o o' ht ht'

/-- Final-map characterization: after the sweep, index `j` holds `now`
exactly when the sweep dispatched entry `j`, and is untouched otherwise. -/
theorem checkAndSendGo_map_spec (w : World) (now : Int) :
    ∀ (l : List ScheduleEntry) (i : Nat) (m : Nat → Option Int) (j : Nat),
      (checkAndSendGo w now l i m).1 j =
        if (j, TickOutcome.sent) ∈ (checkAndSendGo w now l i m).2 then some now
        else m j := by
  intro l
  induction l with
  | nil =>
    intro i m j
    rw [if_neg (by simp [checkAndSendGo])]
    rfl
  | cons e rest ih =>
    intro i m j
    have hcons2 : (checkAndSendGo w now (e :: rest) i m).2 =
        (i, processEntry w now e (m i)) ::
          (checkAndSendGo w now rest (i + 1)
            (if processEntry w now e (m i) = TickOutcome.sent
              then updateMap m i now else m)).2 := rfl
    have hcons1 : (checkAndSendGo w now (e :: rest) i m).1 =
        (checkAndSendGo w now rest (i + 1)
          (if processEntry w now e (m i) = TickOutcome.sent
            then updateMap m i now else m)).1 := rfl
    rw [hcons1, hcons2, ih (i + 1) _ j]
    by_cases hj : j = i
    · subst hj
      have hnotin : (j, TickOutcome.sent) ∉
          (checkAndSendGo w now rest (j + 1)
            (if processEntry w now e (m j) = TickOutcome.sent
              then updateMap m j now else m)).2 := by
        intro hmem
        have := (checkAndSendGo_outs_indices w now rest (j + 1) _ j
          TickOutcome.sent hmem).1
        omega
      rw [if_neg hnotin]
      by_cases hs : processEntry w now e (m j) = TickOutcome.sent
      · rw [if_pos hs]
        rw [if_pos (by rw [hs]; exact List.mem_cons_self _ _)]
        unfold updateMap
        rw [if_pos rfl]
      · rw [if_neg hs] at hnotin ⊢
        rw [if_neg ?hnc]
        case hnc =>
          intro hmem
          rcases List.mem_cons.mp hmem with hh | ht
          · exact hs (congrArg Prod.snd hh).symm
          · exact hnotin ht
    · have hne : ¬ ((j, TickOutcome.sent) = (i, processEntry w now e (m i))) := by
        intro hh
        exact hj (congrArg Prod.fst hh)
      have hmemiff : ((j, TickOutcome.sent) ∈
          (i, processEntry w now e (m i)) ::
            (checkAndSendGo w now rest (i + 1)
              (if processEntry w now e (m i) = TickOutcome.sent
                then updateMap m i now else m)).2) ↔
          ((j, TickOutcome.sent) ∈
            (checkAndSendGo w now rest (i + 1)
              (if processEntry w now e (m i) = TickOutcome.sent
                then updateMap m i now else m)).2) := by
        constructor
        · intro hmem
          rcases List.mem_cons.mp hmem with hh | ht
          · exact absurd hh hne
          · exact ht
        · intro hmem
          exact List.mem_cons_of_mem _ hmem
      rw [if_congr hmemiff rfl rfl]
      by_cases hmem : (j, TickOutcome.sent) ∈
          (checkAndSendGo w now rest (i + 1)
            (if processEntry w now e (m i) = TickOutcome.sent
              then updateMap m i now else m)).2
      · rw [if_pos hmem, if_pos hmem]
      · rw [if_neg hmem, if_neg hmem]
        by_cases hs : processEntry w now e (m i) = TickOutcome.sent
        · rw [if_pos hs]
          unfold updateMap
          rw [if_neg hj]
        · rw [if_neg hs]

/-- C6: one tick evaluates every entry — the outcome list pairs each index
with an outcome computed from that entry's own prior last-sent value, so
no entry's failure aborts or influences the sweep of the others; an entry
whose outcome is anything but a successful send keeps its last-sent state
unchanged (and so stays eligible next tick); and when channel resolution
returns null the sink's send is never invoked for that entry.  The sweep
is a total function: the per-entry try/catch means no exception escapes
the tick. -/
theorem checkAndSend_isolated (w : World) (now : Int)
    (schedules : List ScheduleEntry) (m : Nat → Option Int) :
    ((checkAndSend w now schedules m).2 =
      ((List.range' 0 schedules.length).zip schedules).map
        (fun p => (p.1, processEntry w now p.2 (m p.1)))) ∧
    (∀ j o, (j, o) ∈ (checkAndSend w now schedules m).2 →
      o ≠ TickOutcome.sent → (checkAndSend w now schedules m).1 j = m j) ∧
    (∀ e last, w.fetchChannel e.channel_id = none →
      sendInvoked (processEntry w now e last) = false) := by
  refine ⟨checkAndSendGo_outs w now schedules 0 m, ?_, ?_⟩
  · intro j o hmem hns
    have hnotin : (j, TickOutcome.sent) ∉ (checkAndSendGo w now schedules 0 m).2 := by
      intro hmem'
      exact hns (checkAndSendGo_outs_functional w now schedules 0 m j o
        TickOutcome.sent hmem hmem')
    have := checkAndSendGo_map_spec w now schedules 0 m j
    rw [if_neg hnotin] at this
    exact this
  · intro e last hfetch
    unfold processEntry
    rcases hp : parseInterval e.interval with err | iv
    · rfl
    · show sendInvoked
        (if shouldSendNow e.start (iv : Int) now last then
          match w.fetchChannel e.channel_id with
          | none => TickOutcome.channelUnavailable
          | some ch =>
            if ch.isTextBased = false then TickOutcome.channelUnavailable
            else if w.sendOk e.channel_id e.message then TickOutcome.sent
            else TickOutcome.sendFailed
          else TickOutcome.notDue) = false
      by_cases hd : shouldSendNow e.start (iv : Int) now last
      · rw [if_pos hd, hfetch]
        rfl
      · rw [if_neg hd]
        rfl

/-- C6 witness: a world whose channel resolution always fails, applied to
a one-entry schedule, and an empty sweep leaving the map unchanged. -/
theorem checkAndSend_isolated_witness :
    sendInvoked
      (processEntry ⟨fun _ => none, fun _ _ => true⟩ 0
        ⟨"c", 0, "1m", "x"⟩ none) = false ∧
    (checkAndSend ⟨fun _ => none, fun _ _ => true⟩ 0 [⟨"c", 0, "1m", "x"⟩]
      (fun _ => some 7)).1 0 = some 7 := by
  constructor
  · exact (checkAndSend_isolated ⟨fun _ => none, fun _ _ => true⟩ 0 []
      (fun _ => some 7)).2.2 ⟨"c", 0, "1m", "x"⟩ none rfl
  · exact (checkAndSend_isolated ⟨fun _ => none, fun _ _ => true⟩ 0
      [⟨"c", 0, "1m", "x"⟩] (fun _ => some 7)).2.1 0
      TickOutcome.notDue (by decide) (by decide)

/-- C7: the ScheduleState invariant.  Re-initialization always hands back
a cleared last-sent map; a tick changes an index's entry only by a
successful dispatch of that index (the map is written right after the
send, with the tick's `now`); and provided the stored timestamps do not
lie in the future — every stored value is some earlier tick's `now` —
the stored timestamp at an index never decreases across a tick. -/
theorem scheduleState_invariant (w : World) (now : Int) (fs : FileState)
    (schedules : List ScheduleEntry) (m : Nat → Option Int) :
    (∀ st, initializeService fs = Except.ok st → ∀ j, st.lastSentMap j = none) ∧
    (∀ j, (checkAndSend w now schedules m).1 j ≠ m j →
      (checkAndSend w now schedules m).1 j = some now ∧
      (j, TickOutcome.sent) ∈ (checkAndSend w now schedules m).2) ∧
    (∀ j t t', m j = some t → t ≤ now →
      (checkAndSend w now schedules m).1 j = some t' → t ≤ t') := by
  refine ⟨?_, ?_, ?_⟩
  · intro st h j
    cases fs with
    | missing =>
      simp only [initializeService, loadScheduleConfig, Except.ok.injEq] at h
      rw [← h]
    | present doc =>
      cases doc with
      | malformed =>
        exact absurd h (by simp [initializeService, loadScheduleConfig])
      | loadedNull =>
        simp only [initializeService, loadScheduleConfig, Except.ok.injEq] at h
        rw [← h]
      | loadedNoList =>
        simp only [initializeService, loadScheduleConfig, Except.ok.injEq] at h
        rw [← h]
      | loadedSchedules l =>
        simp only [initializeService, loadScheduleConfig, Except.ok.injEq] at h
        rw [← h]
  · intro j hne
    have hms := checkAndSendGo_map_spec w now schedules 0 m j
    by_cases hmem : (j, TickOutcome.sent) ∈ (checkAndSendGo w now schedules 0 m).2
    · rw [if_pos hmem] at hms
      exact ⟨hms, hmem⟩
    · rw [if_neg hmem] at hms
      exact absurd hms hne
  · intro j t t' hm hle hm'
    have hms := checkAndSendGo_map_spec w now schedules 0 m j
    by_cases hmem : (j, TickOutcome.sent) ∈ (checkAndSendGo w now schedules 0 m).2
    · rw [if_pos hmem] at hms
      have ht' : t' = now := by
        have h2 : (checkAndSend w now schedules m).1 j = some now := hms
        rw [hm'] at h2
        exact (Option.some.injEq _ _).mp h2
      omega
    · rw [if_neg hmem] at hms
      have h2 : (checkAndSend w now schedules m).1 j = m j := hms
      rw [hm', hm] at h2
      have : t' = t := (Option.some.injEq _ _).mp h2
      omega

/-- C7 witness: re-initialization from a missing file yields a cleared
map; a due entry's dispatch is the only way index 0 changed, recording
the tick's `now`; and a stored timestamp never decreases. -/
theorem scheduleState_invariant_witness :
    ((⟨⟨[]⟩, fun _ => none, false⟩ : ServiceState).lastSentMap 2 = none) ∧
    ((checkAndSend ⟨fun _ => some ⟨true⟩, fun _ _ => true⟩ 0
        [⟨"c", 0, "1m", "hi"⟩] (fun _ => none)).1 0 = some 0 ∧
      (0, TickOutcome.sent) ∈
        (checkAndSend ⟨fun _ => some ⟨true⟩, fun _ _ => true⟩ 0
          [⟨"c", 0, "1m", "hi"⟩] (fun _ => none)).2) ∧
    (5 : Int) ≤ 5 := by
  refine ⟨?_, ?_, ?_⟩
  · exact (scheduleState_invariant ⟨fun _ => some ⟨true⟩, fun _ _ => true⟩ 0
      FileState.missing [] (fun _ => none)).1 ⟨⟨[]⟩, fun _ => none, false⟩ rfl 2
  · exact (scheduleState_invariant ⟨fun _ => some ⟨true⟩, fun _ _ => true⟩ 0
      FileState.missing [⟨"c", 0, "1m", "hi"⟩]
      (fun _ => none)).2.1 0 (by decide)
  · exact (scheduleState_invariant ⟨fun _ => some ⟨true⟩, fun _ _ => true⟩ 5
      FileState.missing [] (fun _ => some 5)).2.2 0 5 5 rfl (by norm_num) rfl

/-- The chunking helper ignores the exact amount of fuel as long as the
list fits. -/
theorem batchesOfAux_fuel {α : Type} :
    ∀ (f g : Nat) (xs : List α), xs.length ≤ f → xs.length ≤ g →
      batchesOfAux f xs = batchesOfAux g xs := by
  intro f
  induction f with
  | zero =>
    intro g xs hf hg
    have hnil : xs = [] := List.eq_nil_of_length_eq_zero (by omega)
    subst hnil
    cases g with
    | zero => rfl
    | succ g => rfl
  | succ f ih =>
    intro g xs hf hg
    cases xs with
    | nil =>
      cases g with
      | zero => rfl
      | succ g => rfl
    | cons x t =>
      cases g with
      | zero =>
        exact absurd hg (by simp)
      | succ g =>
        show ((x :: t).take BATCH_SIZE) :: batchesOfAux f ((x :: t).drop BATCH_SIZE) =
          ((x :: t).take BATCH_SIZE) :: batchesOfAux g ((x :: t).drop BATCH_SIZE)
        congr 1
        apply ih
        · simp only [List.length_drop, List.length_cons, BATCH_SIZE] at *
          omega
        · simp only [List.length_drop, List.length_cons, BATCH_SIZE] at *
          omega

/-- Unfolding equation of `batchesOf` on a non-empty list. -/
theorem batchesOf_ne_nil {α : Type} (xs : List α) (h : xs ≠ []) :
    batchesOf xs = xs.take BATCH_SIZE :: batchesOf (xs.drop BATCH_SIZE) := by
  obtain ⟨x, t, rfl⟩ := List.exists_cons_of_ne_nil h
  show ((x :: t).take BATCH_SIZE) :: batchesOfAux t.length ((x :: t).drop BATCH_SIZE) =
    ((x :: t).take BATCH_SIZE) :: batchesOf ((x :: t).drop BATCH_SIZE)
  congr 1
  apply batchesOfAux_fuel
  · simp only [List.length_drop, List.length_cons, BATCH_SIZE]
    omega
  · exact Nat.le_refl _

/-- There are exactly `⌈n / 10⌉` chunks. -/
theorem batchesOf_length {α : Type} :
    ∀ (f : Nat) (xs : List α), xs.length ≤ f →
      (batchesOfAux f xs).length = (xs.length + 9) / 10 := by
  intro f
  induction f with
  | zero =>
    intro xs hf
    have hnil : xs = [] := List.eq_nil_of_length_eq_zero (by omega)
    subst hnil
    simp [batchesOfAux]
  | succ f ih =>
    intro xs hf
    cases xs with
    | nil => simp [batchesOfAux]
    | cons x t =>
      show (((x :: t).take BATCH_SIZE) ::
        batchesOfAux f ((x :: t).drop BATCH_SIZE)).length = _
      have hd : ((x :: t).drop BATCH_SIZE).length = (t.length + 1) - BATCH_SIZE := by
        simp [List.length_drop]
      rw [List.length_cons, ih _ (by
        simp only [List.length_drop, List.length_cons, BATCH_SIZE] at hf ⊢
        omega)]
      rw [hd]
      simp only [List.length_cons, BATCH_SIZE]
      omega

/-- The batching loop of the `ThreadCreate` handler only ever appends
edits of post 0: the accumulator's message id and fresh-id never move. -/
theorem enroll_foldl (batches : List (List String)) (ops0 : List ThreadOp) :
    batches.foldl enrollStep (0, 1, ops0) =
      (0, 1, ops0 ++ batches.map (fun b => ThreadOp.edit 0 (mentionString b))) := by
  induction batches generalizing ops0 with
  | nil => simp
  | cons b rest ih =>
    show List.foldl enrollStep (enrollStep (0, 1, ops0) b) rest = _
    have hstep : enrollStep (0, 1, ops0) b =
        (0, 1, ops0 ++ [ThreadOp.edit 0 (mentionString b)]) := rfl
    rw [hstep, ih]
    simp

/-- The operations of a `ThreadCreate` enrollment: one placeholder
creation, then one mention edit of that same post per batch. -/
theorem threadCreateEnroll_eq (ids : List String) :
    threadCreateEnroll ids =
      ThreadOp.create 0 zeroWidthSpace ::
        (batchesOf ids).map (fun b => ThreadOp.edit 0 (mentionString b)) := by
  unfold threadCreateEnroll
  rw [enroll_foldl]
  rfl

/-- C4: enrolling `n` users into a fresh thread creates exactly one
placeholder post, issues exactly `⌈n / 10⌉` edit operations, every
operation targets that single post (never one post per user), and for
23 users the ids are partitioned into batches of exactly 10, 10 and 3. -/
theorem threadCreateEnroll_batching (ids : List String) :
    ((threadCreateEnroll ids).filter ThreadOp.isCreate).length = 1 ∧
    ((threadCreateEnroll ids).filter ThreadOp.isEdit).length =
      (ids.length + 9) / 10 ∧
    (∀ op ∈ threadCreateEnroll ids, op.targetId = 0) ∧
    (ids.length = 23 → (batchesOf ids).map List.length = [10, 10, 3]) := by
  refine ⟨?_, ?_, ?_, ?_⟩
  · rw [threadCreateEnroll_eq]
    show (ThreadOp.create 0 zeroWidthSpace ::
      List.filter ThreadOp.isCreate
        ((batchesOf ids).map (fun b => ThreadOp.edit 0 (mentionString b)))).length = 1
    rw [List.filter_map]
    have : List.filter (ThreadOp.isCreate ∘ fun b => ThreadOp.edit 0 (mentionString b))
        (batchesOf ids) = [] := by
      apply List.filter_eq_nil_iff.mpr
      intro b hb
      simp [ThreadOp.isCreate, Function.comp]
    rw [this]
    rfl
  · rw [threadCreateEnroll_eq]
    show (List.filter ThreadOp.isEdit
      ((batchesOf ids).map (fun b => ThreadOp.edit 0 (mentionString b)))).length = _
    rw [List.filter_map]
    have : List.filter (ThreadOp.isEdit ∘ fun b => ThreadOp.edit 0 (mentionString b))
        (batchesOf ids) = batchesOf ids := by
      apply List.filter_eq_self.mpr
      intro b hb
      simp [ThreadOp.isEdit, Function.comp]
    rw [this, List.length_map]
    exact batchesOf_length ids.length ids (Nat.le_refl _)
  · rw [threadCreateEnroll_eq]
    intro op hop
    rcases List.mem_cons.mp hop with hh | ht
    · rw [hh]
      rfl
    · obtain ⟨b, hb, hbe⟩ := List.mem_map.mp ht
      rw [← hbe]
      rfl
  · intro h23
    have hne1 : ids ≠ [] := by
      intro he
      rw [he] at h23
      simp at h23
    have h1 := batchesOf_ne_nil ids hne1
    have hlen1 : (ids.drop BATCH_SIZE).length = 13 := by
      simp [List.length_drop, h23, BATCH_SIZE]
    have hne2 : ids.drop BATCH_SIZE ≠ [] := by
      intro he
      rw [he] at hlen1
      simp at hlen1
    have h2 := batchesOf_ne_nil (ids.drop BATCH_SIZE) hne2
    have hlen2 : ((ids.drop BATCH_SIZE).drop BATCH_SIZE).length = 3 := by
      simp [List.length_drop, h23, BATCH_SIZE]
    have hne3 : (ids.drop BATCH_SIZE).drop BATCH_SIZE ≠ [] := by
      intro he
      rw [he] at hlen2
      simp at hlen2
    have h3 := batchesOf_ne_nil ((ids.drop BATCH_SIZE).drop BATCH_SIZE) hne3
    have hlen3 : (((ids.drop BATCH_SIZE).drop BATCH_SIZE).drop BATCH_SIZE).length = 0 := by
      simp [List.length_drop, h23, BATCH_SIZE]
    have h4 : batchesOf (((ids.drop BATCH_SIZE).drop BATCH_SIZE).drop BATCH_SIZE) =
        ([] : List (List String)) := by
      rw [List.eq_nil_of_length_eq_zero hlen3]
      rfl
    rw [h1, h2, h3, h4]
    simp only [List.map_cons, List.map_nil, List.length_take, List.length_drop,
      h23, BATCH_SIZE]
    rfl

/-- C4 witness: 23 identical user ids produce batches of 10, 10 and 3,
one created post and three edits. -/
theorem threadCreateEnroll_batching_witness :
    ((threadCreateEnroll (List.replicate 23 "u")).filter ThreadOp.isCreate).length = 1 ∧
    ((threadCreateEnroll (List.replicate 23 "u")).filter ThreadOp.isEdit).length = 3 ∧
    (ThreadOp.create 0 zeroWidthSpace).targetId = 0 ∧
    (batchesOf (List.replicate 23 "u")).map List.length = [10, 10, 3] := by
  refine ⟨(threadCreateEnroll_batching (List.replicate 23 "u")).1, ?_, ?_, ?_⟩
  · have h := (threadCreateEnroll_batching (List.replicate 23 "u")).2.1
    rw [List.length_replicate] at h
    exact h
  · exact (threadCreateEnroll_batching ["a"]).2.2.1
      (ThreadOp.create 0 zeroWidthSpace) (by decide)
  · exact (threadCreateEnroll_batching (List.replicate 23 "u")).2.2.2
      (List.length_replicate 23 "u")

/-- C8 counterexample: enrolling a single user edits the marker post to
the mention list and stops — no operation afterwards restores the
zero-width-space placeholder, so after the batch the post's content is
the batch's mentions, not the empty placeholder. -/
theorem markerPost_not_cleared :
    threadCreateEnroll ["u1"] =
      [ThreadOp.create 0 zeroWidthSpace, ThreadOp.edit 0 "<@u1>"] ∧
    contentAfter (threadCreateEnroll ["u1"]) 0 = some "<@u1>" ∧
    ("<@u1>" : String) ≠ zeroWidthSpace := by
  refine ⟨rfl, rfl, by decide⟩

/-- C8 amended: after each batch the enroller leaves the marker post's
content equal to that batch's mention list (the placeholder appears only
at creation; the next batch's edit overwrites, nothing clears), and the
marker post is never deleted by the engine. -/
theorem markerPost_overwritten_never_deleted (ids : List String) :
    threadCreateEnroll ids =
      ThreadOp.create 0 zeroWidthSpace ::
        (batchesOf ids).map (fun b => ThreadOp.edit 0 (mentionString b)) ∧
    (∀ op ∈ threadCreateEnroll ids, op.isDelete = false) := by
  refine ⟨threadCreateEnroll_eq ids, ?_⟩
  rw [threadCreateEnroll_eq]
  intro op hop
  rcases List.mem_cons.mp hop with hh | ht
  · rw [hh]
    rfl
  · obtain ⟨b, hb, hbe⟩ := List.mem_map.mp ht
    rw [← hbe]
    rfl

/-- C8 amended witness: one batch of one user, instantiated at the edit
operation the run issues. -/
theorem markerPost_overwritten_never_deleted_witness :
    threadCreateEnroll ["u1"] =
      ThreadOp.create 0 zeroWidthSpace ::
        (batchesOf ["u1"]).map (fun b => ThreadOp.edit 0 (mentionString b)) ∧
    (ThreadOp.edit 0 (mentionString ["u1"])).isDelete = false :=
  ⟨(markerPost_overwritten_never_deleted ["u1"]).1,
   (markerPost_overwritten_never_deleted ["u1"]).2
     (ThreadOp.edit 0 (mentionString ["u1"])) (by decide)⟩

/-- `List.find?` returns the first element satisfying the predicate: it
satisfies it, and everything strictly before it does not. -/
theorem find?_first {α : Type} (p : α → Bool) :
    ∀ (l : List α) (a : α), l.find? p = some a →
      p a = true ∧ ∃ i, l.get? i = some a ∧
        ∀ j b, j < i → l.get? j = some b → p b = false := by
  intro l
  induction l with
  | nil =>
    intro a h
    exact absurd h (by simp)
  | cons x t ih =>
    intro a h
    by_cases hx : p x = true
    · rw [List.find?_cons_of_pos _ hx] at h
      have hax : x = a := (Option.some.injEq _ _).mp h
      subst hax
      refine ⟨hx, 0, rfl, ?_⟩
      intro j b hj hb
      omega
    · rw [List.find?_cons_of_neg _ hx] at h
      obtain ⟨hpa, i, hi, hbefore⟩ := ih a h
      refine ⟨hpa, i + 1, hi, ?_⟩
      intro j b hj hb
      cases j with
      | zero =>
        have hxb : x = b := (Option.some.injEq _ _).mp hb
        rw [← hxb]
        exact Bool.not_eq_true _ ▸ Bool.of_not_eq_true hx
      | succ j =>
        exact hbefore j b (by omega) hb

/-- C9: the locator scans only the oldest 50 messages and returns the
first bot-authored one (none exactly when no bot post is among them); and
a later enrollment event on a thread where the locator finds a marker
post edits that post — the operations contain no creation. -/
theorem findBotMessage_reuses (botId : String) (history : List ThreadMsg)
    (memberId : String) (freshId : Nat) :
    (findBotMessageInThread botId history = none ↔
      ∀ m ∈ history.take 50, m.author ≠ botId) ∧
    (∀ m, findBotMessageInThread botId history = some m →
      m.author = botId ∧ ∃ i, (history.take 50).get? i = some m ∧
        ∀ j m', j < i → (history.take 50).get? j = some m' →
          m'.author ≠ botId) ∧
    (∀ m, findBotMessageInThread botId history = some m →
      guildMemberAddEnrollThread botId history memberId freshId =
        [ThreadOp.edit m.id (mentionString [memberId])]) := by
  refine ⟨?_, ?_, ?_⟩
  · unfold findBotMessageInThread
    rw [List.find?_eq_none]
    constructor
    · intro h m hm
      intro he
      exact absurd (by rw [he]; exact beq_self_eq_true botId) (h m hm)
    · intro h m hm
      intro he
      exact h m hm (by simpa using he)
  · intro m hfind
    obtain ⟨hp, i, hi, hbefore⟩ := find?_first _ _ m hfind
    refine ⟨by simpa using hp, i, hi, ?_⟩
    intro j m' hj hm'
    have := hbefore j m' hj hm'
    simpa using this
  · intro m hfind
    unfold guildMemberAddEnrollThread
    rw [hfind]
    rfl

/-- C9 witness: in a thread whose second-oldest message is the bot's, a
new member's enrollment edits exactly that message. -/
theorem findBotMessage_reuses_witness :
    guildMemberAddEnrollThread "B" [⟨1, "A"⟩, ⟨2, "B"⟩] "u" 9 =
      [ThreadOp.edit 2 (mentionString ["u"])] :=
  (findBotMessage_reuses "B" [⟨1, "A"⟩, ⟨2, "B"⟩] "u" 9).2.2 ⟨2, "B"⟩ rfl
